import Mathlib

/-!
Shallow embedding of `src/common/Utilities/Containers.h` from the
AzerothCore project (namespaces `Acore` / `Acore::Containers`).

Containers are modelled as Lean `List`s (the observable element sequence);
iterators become indices into the list; `size_t`/`uint32` counters become
`Nat` (sizes are assumed within the `uint32` range, as everywhere in the
code base); C++ exceptions become `Except`.  The external random engine
(`Random.h`, not part of the sources) is passed in explicitly: a call
`urand(1, m)` with `m` the current value of `elementsToProcess` consumes
the next entry of a draw list, and `urand(0, hi)` is a function of `hi`.
-/

namespace Acore

/-- The bounds-checked output cursor `Acore::CheckedBufferOutputIterator`.
The underlying buffer pointer is abstracted to a start offset `0`, so
`buf` is the current write offset and `endp` models `_end = buf + n`. -/
structure CheckedBufferOutputIterator where
  buf : Nat
  endp : Nat
deriving DecidableEq

namespace CheckedBufferOutputIterator

/-- The constructor `CheckedBufferOutputIterator(T* buf, std::size_t n)`:
cursor at the start of a buffer of capacity `n`. -/
def make (n : Nat) : CheckedBufferOutputIterator := ⟨0, n⟩

/-- `check()`: throws `std::out_of_range("index")` unless `_buf < _end`. -/
def check (it : CheckedBufferOutputIterator) : Except String Unit :=
  if it.buf < it.endp then Except.ok () else Except.error "index"

/-- `remaining()`: `_end - _buf` (truncated subtraction on `Nat`). -/
def remaining (it : CheckedBufferOutputIterator) : Nat := it.endp - it.buf

/-- `operator++`: `check(); ++_buf`. -/
def inc (it : CheckedBufferOutputIterator) : Except String CheckedBufferOutputIterator :=
  match it.check with
  | Except.ok _ => Except.ok ⟨it.buf + 1, it.endp⟩
  | Except.error e => Except.error e

/-- `*it = v`: `operator*` checks the bound and yields a reference to
`*_buf`; the assignment then stores `v` there.  `mem` is the buffer
content (the list the pointer points into). -/
def write {T : Type _} (it : CheckedBufferOutputIterator) (mem : List T) (v : T) :
    Except String (List T) :=
  match it.check with
  | Except.ok _ => Except.ok (mem.set it.buf v)
  | Except.error e => Except.error e

/-- One producer step `*it++ = v`: dereference-and-assign, then increment. -/
def writeStep {T : Type _} (it : CheckedBufferOutputIterator) (mem : List T) (v : T) :
    Except String (CheckedBufferOutputIterator × List T) :=
  match it.write mem v with
  | Except.ok mem' =>
    match it.inc with
    | Except.ok it' => Except.ok (it', mem')
    | Except.error e => Except.error e
  | Except.error e => Except.error e

/-- Feed a whole list of values to the cursor, one `writeStep` each. -/
def writeAll {T : Type _} (it : CheckedBufferOutputIterator) (mem : List T) :
    List T → Except String (CheckedBufferOutputIterator × List T)
  | [] => Except.ok (it, mem)
  | v :: vs =>
    match writeStep it mem v with
    | Except.ok (it', mem') => writeAll it' mem' vs
    | Except.error e => Except.error e

end CheckedBufferOutputIterator

end Acore

namespace Acore.Containers

/-- The `while (elementsToProcess)` loop of `RandomResize`.  `rs` is the
stream of values returned by the successive calls `urand(1, elementsToProcess)`,
`t` is `elementsToKeep`, and the remaining list is the range
`[curIt, end)`, whose length equals `elementsToProcess`.  The kept
elements are compacted to the front (`*keepIt = std::move(*curIt)`) and
the tail is erased, so the observable result is the kept sublist. -/
def randomResizeGo {α : Type _} : List Nat → Nat → List α → List α
  | r :: rs, t, x :: xs =>
    if r ≤ t then x :: randomResizeGo rs (t - 1) xs
    else randomResizeGo rs t xs
  | _, _, l => l

/-- `Acore::Containers::RandomResize(container, requestedSize)`. -/
def RandomResize {α : Type _} (rs : List Nat) (container : List α) (requestedSize : Nat) :
    List α :=
  if container.length ≤ requestedSize then container
  else randomResizeGo rs requestedSize container

/-- `validDraws rs m` holds when `rs` is a possible sequence of results of
the calls `urand(1, elementsToProcess)` made while `elementsToProcess`
counts down from `m`: the `i`-th entry lies in `[1, m - i]`. -/
def validDraws : List Nat → Nat → Bool
  | [], m => m == 0
  | r :: rs, m => 1 ≤ r && r ≤ m && validDraws rs (m - 1)

/-- The finite set of all valid draw sequences for `m = n` (the uniform
sample space of the random source during one `RandomResize` call). -/
def drawLists : Nat → Finset (List Nat)
  | 0 => {[]}
  | n + 1 => (Finset.Icc 1 (n + 1)).biUnion fun r => (drawLists n).image (List.cons r)

/-- The predicate overload
`RandomResize(container, predicate, requestedSize)`: `std::copy_if` into a
fresh container (filter, preserving order), then cap with the plain
`RandomResize` only when `requestedSize` is nonzero. -/
def RandomResizeIf {α : Type _} (rs : List Nat) (container : List α) (predicate : α → Bool)
    (requestedSize : Nat) : List α :=
  let containerCopy := container.filter predicate
  if requestedSize ≠ 0 then RandomResize rs containerCopy requestedSize
  else containerCopy

/-- `Acore::Containers::SelectRandomContainerElement`: advance `begin` by
`urand(0, size - 1)` and return that element.  `d hi` models the result
of the call `urand(0, hi)`. -/
def SelectRandomContainerElement {α : Type _} [Inhabited α] (d : Nat → Nat) (container : List α) :
    α :=
  container.getD (d (container.length - 1)) default

/-- The list `matchingElements` built by `SelectRandomContainerElementIf`:
the iterators (modelled as indices) at which the predicate holds, in scan
order. -/
def matchingIndices {α : Type _} [Inhabited α] (container : List α) (predicate : α → Bool) :
    List Nat :=
  (List.range container.length).filter fun i => predicate (container.getD i default)

/-- `Acore::Containers::SelectRandomContainerElementIf`: collect matching
positions, return `none` (the end iterator) when there are none, else the
position indexed by `urand(0, matchingElements.size() - 1)`.  `d hi`
models the result of the call `urand(0, hi)`. -/
def SelectRandomContainerElementIf {α : Type _} [Inhabited α] (d : Nat → Nat)
    (container : List α) (predicate : α → Bool) : Option Nat :=
  let matchingElements := matchingIndices container predicate
  if matchingElements.isEmpty then none
  else some (matchingElements.getD (d (matchingElements.length - 1)) 0)

/-- Form A, `SelectRandomWeightedContainerElement(container, weights)`:
advance `begin` by `urandweighted(weights.size(), weights.data())` and
return that iterator.  `wdraw` models the external `urandweighted`
primitive; `double` weights are modelled as `ℚ`.  The returned iterator is
modelled as its index. -/
def SelectRandomWeightedContainerElement {α : Type _} (wdraw : List ℚ → Nat)
    (container : List α) (weights : List ℚ) : Nat :=
  wdraw weights

/-- Form B, `SelectRandomWeightedContainerElement(container, weightExtractor)`:
extract one weight per element accumulating the sum, substitute the
all-ones vector when the sum is `<= 0`, and delegate to Form A. -/
def SelectRandomWeightedContainerElementExt {α : Type _} (wdraw : List ℚ → Nat)
    (container : List α) (weightExtractor : α → ℚ) : Nat :=
  let weights := container.map weightExtractor
  let weightSum := weights.sum
  let weights' := if weightSum ≤ 0 then List.replicate container.length 1 else weights
  SelectRandomWeightedContainerElement wdraw container weights'

/-- Modelled from the spec: the distribution contract of the external
Random Source's weighted draw `weightedIndex(weights)` (`urandweighted`
in `Random.h`, which is not among the sources): an index is drawn with
probability proportional to its weight, i.e. index `i` has probability
`weights[i] / sum(weights)`. -/
def weightedIndexProb (weights : List ℚ) (i : Nat) : ℚ :=
  weights.getD i 0 / weights.sum

/-- Modelled from the spec: the distribution contract of the external
Random Source's `uniformInt(0, n - 1)` draw used by the Uniform Element
Selector: each index in `[0, n)` has probability `1 / n`. -/
def uniformIndexProb (n : Nat) (i : Nat) : ℚ :=
  if i < n then 1 / (n : ℚ) else 0

/-- `Acore::Containers::MapGetValuePtr`: `map.find(key)`, then either a
pointer to the mapped value (`AddressOrSelf(itr->second)`) or `nullptr`.
The map is modelled as an association list with unique keys; the returned
pointer is modelled as `Option` of the pointed-to value. -/
def MapGetValuePtr {K V : Type _} [DecidableEq K] (map : List (K × V)) (key : K) : Option V :=
  match map.find? (fun e => e.1 = key) with
  | some e => some e.2
  | none => none

/-- The loop of `Acore::Containers::MultimapErasePair` over the range
`multimap.equal_range(key)`: erase the entries whose mapped value equals
`value`, advance over the others. -/
def multimapErasePairLoop {K V : Type _} [DecidableEq V] (value : V) :
    List (K × V) → List (K × V)
  | [] => []
  | e :: rest =>
    if e.2 = value then multimapErasePairLoop value rest
    else e :: multimapErasePairLoop value rest

/-- `Acore::Containers::MultimapErasePair(multimap, key, value)`.  The
multimap is modelled as the entry list `pre ++ mid ++ post` where `mid`
is the contiguous segment returned by `multimap.equal_range(key)` (the
hypotheses of the correctness theorem capture that decomposition); the
loop erases the value-matching entries of that segment only. -/
def MultimapErasePair {K V : Type _} [DecidableEq V] (pre mid post : List (K × V)) (value : V) :
    List (K × V) :=
  pre ++ multimapErasePairLoop value mid ++ post

/-- `std::swap(c[i], c[j])` on a list. -/
def listSwap {α : Type _} [Inhabited α] (c : List α) (i j : Nat) : List α :=
  (c.set i (c.getD j default)).set j (c.getD i default)

/-- The scan loop of the move-assignable `EraseIf` overload: `w` is
`wpos`, `r` is `rpos` (indices into `c`); an element failing the
predicate is swapped into the write slot (unless the cursors coincide)
and `wpos` advances; `rpos` always advances. Returns the final container
contents and the final `wpos`. -/
def eraseIfGo {α : Type _} [Inhabited α] (p : α → Bool) (c : List α) (w r : Nat) :
    List α × Nat :=
  if h : r < c.length then
    if p (c.getD r default) then eraseIfGo p c w (r + 1)
    else if w = r then eraseIfGo p c (w + 1) (r + 1)
    else eraseIfGo p (listSwap c r w) (w + 1) (r + 1)
  else (c, w)
termination_by c.length - r
decreasing_by
  · omega
  · omega
  · simp only [listSwap, List.length_set]
    omega

/-- The move-assignable `EraseIf` overload: run the compaction scan from
`wpos = rpos = begin`, then `c.erase(wpos, c.end())`. -/
def EraseIfMove {α : Type _} [Inhabited α] (p : α → Bool) (c : List α) : List α :=
  let res := eraseIfGo p c 0 0
  res.1.take res.2

/-- The non-move-assignable `EraseIf` overload: walk the container erasing
the current element when the predicate holds (`it = c.erase(it)`),
advancing past it otherwise. -/
def EraseIfNonMove {α : Type _} (p : α → Bool) : List α → List α
  | [] => []
  | x :: xs => if p x then EraseIfNonMove p xs else x :: EraseIfNonMove p xs

end Acore.Containers

/-! ## Helper lemmas -/

namespace Acore.CheckedBufferOutputIterator

lemma writeAll_ok_of_le {T : Type _} (n : Nat) :
    ∀ (vs : List T) (i : Nat) (mem : List T), i + vs.length ≤ n →
      ∃ mem' : List T,
        writeAll ⟨i, n⟩ mem vs = Except.ok (⟨i + vs.length, n⟩, mem') ∧
        mem'.length = mem.length ∧ mem'.drop n = mem.drop n
  | [], i, mem, _ => ⟨mem, by simp [writeAll], rfl, rfl⟩
  | v :: vs, i, mem, h => by
    have hi : i < n := by simp at h; omega
    have hstep : writeStep (T := T) ⟨i, n⟩ mem v = Except.ok (⟨i + 1, n⟩, mem.set i v) := by
      simp [writeStep, write, inc, check, hi]
    obtain ⟨mem', hall, hlen, hdrop⟩ :=
      writeAll_ok_of_le n vs (i + 1) (mem.set i v) (by simp at h ⊢; omega)
    refine ⟨mem', ?_, ?_, ?_⟩
    · show writeAll ⟨i, n⟩ mem (v :: vs) = _
      rw [writeAll, hstep]
      show writeAll ⟨i + 1, n⟩ (mem.set i v) vs = _
      rw [hall]
      have harith : i + 1 + vs.length = i + (v :: vs).length := by simp; omega
      rw [harith]
    · rw [hlen, List.length_set]
    · rw [hdrop, List.drop_set_of_lt _ _ hi]

lemma writeStep_full {T : Type _} (n : Nat) (mem : List T) (v : T) :
    writeStep ⟨n, n⟩ mem v = Except.error "index" := by
  simp [writeStep, write, check]

lemma writeAll_append {T : Type _} (vs : List T) :
    ∀ (it : CheckedBufferOutputIterator) (mem : List T) (ws : List T),
      writeAll it mem (vs ++ ws) =
        match writeAll it mem vs with
        | Except.ok (it', mem') => writeAll it' mem' ws
        | Except.error e => Except.error e := by
  induction vs with
  | nil => intro it mem ws; simp [writeAll]
  | cons v vs ih =>
    intro it mem ws
    show writeAll it mem (v :: (vs ++ ws)) = _
    rw [writeAll, writeAll]
    cases h : writeStep it mem v with
    | ok p => cases p with
      | mk it' mem' => exact ih it' mem' ws
    | error e => rfl

end Acore.CheckedBufferOutputIterator

namespace Acore.Containers

lemma multimapErasePairLoop_eq_filter {K V : Type _} [DecidableEq V] (value : V) :
    ∀ mid : List (K × V),
      multimapErasePairLoop value mid = mid.filter fun e => !decide (e.2 = value)
  | [] => rfl
  | e :: rest => by
    rw [multimapErasePairLoop]
    by_cases h : e.2 = value
    · simp [h, multimapErasePairLoop_eq_filter value rest]
    · simp [h, multimapErasePairLoop_eq_filter value rest]


lemma MapGetValuePtr_mem {K V : Type _} [DecidableEq K] :
    ∀ (m : List (K × V)) (key : K) (v : V),
      (m.map Prod.fst).Nodup → (key, v) ∈ m → MapGetValuePtr m key = some v
  | [], _, _, _, hv => absurd hv (List.not_mem_nil _)
  | e :: rest, key, v, hnodup, hv => by
    by_cases he : e.1 = key
    · have hfind : (e :: rest).find? (fun x => decide (x.1 = key)) = some e :=
        List.find?_cons_of_pos _ (by simp [he])
      rcases List.mem_cons.mp hv with h1 | h2
      · rw [← h1] at hfind ⊢
        simp [MapGetValuePtr, hfind]
      · exfalso
        have hkeymem : key ∈ rest.map Prod.fst := List.mem_map.mpr ⟨(key, v), h2, rfl⟩
        have hn : (e.1 :: rest.map Prod.fst).Nodup := hnodup
        exact (List.nodup_cons.mp hn).1 (he ▸ hkeymem)
    · have hfind : (e :: rest).find? (fun x => decide (x.1 = key))
          = rest.find? (fun x => decide (x.1 = key)) :=
        List.find?_cons_of_neg _ (by simp [he])
      rcases List.mem_cons.mp hv with h1 | h2
      · exact absurd (by rw [← h1]) he
      · have hn : (e.1 :: rest.map Prod.fst).Nodup := hnodup
        have ih := MapGetValuePtr_mem rest key v (List.nodup_cons.mp hn).2 h2
        simpa [MapGetValuePtr, hfind] using ih

@[simp] lemma randomResizeGo_nil_draws {α : Type _} (t : Nat) (l : List α) :
    randomResizeGo [] t l = l := by cases l <;> rfl

@[simp] lemma randomResizeGo_nil {α : Type _} (rs : List Nat) (t : Nat) :
    randomResizeGo rs t ([] : List α) = [] := by cases rs <;> rfl

@[simp] lemma randomResizeGo_cons {α : Type _} (r : Nat) (rs : List Nat) (t : Nat) (x : α)
    (xs : List α) :
    randomResizeGo (r :: rs) t (x :: xs)
      = if r ≤ t then x :: randomResizeGo rs (t - 1) xs else randomResizeGo rs t xs := rfl

lemma randomResizeGo_sublist {α : Type _} : ∀ (l : List α) (rs : List Nat) (t : Nat),
    (randomResizeGo rs t l).Sublist l
  | [], _, _ => by simp
  | _ :: _, [], _ => by simp
  | x :: xs, r :: rs, t => by
    rw [randomResizeGo_cons]
    by_cases h : r ≤ t
    · simpa [h] using List.Sublist.cons₂ x (randomResizeGo_sublist xs rs (t - 1))
    · simpa [h] using List.Sublist.cons x (randomResizeGo_sublist xs rs t)

lemma randomResizeGo_length {α : Type _} : ∀ (l : List α) (rs : List Nat) (t : Nat),
    validDraws rs l.length = true → t ≤ l.length → (randomResizeGo rs t l).length = t
  | [], rs, t, _, ht => by
    have : t = 0 := by simpa using ht
    simp [this]
  | x :: xs, rs, t, hv, ht => by
    cases rs with
    | nil => simp [validDraws] at hv
    | cons r rs' =>
      simp only [validDraws, List.length_cons, Nat.add_sub_cancel, Bool.and_eq_true,
        decide_eq_true_eq] at hv
      obtain ⟨⟨h1, hr⟩, hv'⟩ := hv
      rw [randomResizeGo_cons]
      by_cases h : r ≤ t
      · have hlen := randomResizeGo_length xs rs' (t - 1) hv' (by simp at ht; omega)
        simp [h, hlen]
        omega
      · have hlen := randomResizeGo_length xs rs' t hv' (by omega)
        simp [h, hlen]

lemma take_set_same {α : Type _} (l : List α) (i : Nat) (a : α) :
    (l.set i a).take i = l.take i := by
  rw [List.set_eq_take_append_cons_drop]
  by_cases h : i < l.length
  · rw [if_pos h, List.take_left' (by simp [List.length_take]; omega)]
  · rw [if_neg h]

lemma listSwap_length {α : Type _} [Inhabited α] (c : List α) (i j : Nat) :
    (listSwap c i j).length = c.length := by
  simp [listSwap]

lemma listSwap_take_succ {α : Type _} [Inhabited α] (c : List α) (w r : Nat) (hwr : w < r)
    (hr : r < c.length) :
    (listSwap c r w).take (w + 1) = c.take w ++ [c.getD r default] := by
  have h1 : ((c.set r (c.getD w default)).set w (c.getD r default)).take w = c.take w := by
    rw [take_set_same, List.take_set_of_lt _ c hwr]
  have h2 : ((c.set r (c.getD w default)).set w (c.getD r default))[w]?
      = some (c.getD r default) :=
    List.getElem?_set_self (by simp only [List.length_set]; omega)
  unfold listSwap
  rw [List.take_succ, h1, h2]
  rfl

lemma listSwap_drop {α : Type _} [Inhabited α] (c : List α) (w r : Nat) (hwr : w < r) :
    (listSwap c r w).drop (r + 1) = c.drop (r + 1) := by
  unfold listSwap
  rw [List.drop_set_of_lt _ _ (by omega), List.drop_set_of_lt _ _ (by omega)]

lemma take_succ_of_lt {α : Type _} [Inhabited α] (c : List α) (w : Nat) (h : w < c.length) :
    c.take (w + 1) = c.take w ++ [c.getD w default] := by
  rw [List.take_succ, List.getElem?_eq_getElem h, List.getD_eq_getElem _ _ h]
  rfl

lemma drop_eq_getD_cons {α : Type _} [Inhabited α] {c : List α} {r : Nat} (h : r < c.length) :
    c.drop r = c.getD r default :: c.drop (r + 1) := by
  rw [List.drop_eq_getElem_cons h, List.getD_eq_getElem _ _ h]

lemma eraseIfGo_spec {α : Type _} [Inhabited α] (p : α → Bool) :
    ∀ (c : List α) (w r : Nat), w ≤ r → r ≤ c.length →
      (eraseIfGo p c w r).1.take (eraseIfGo p c w r).2
        = c.take w ++ (c.drop r).filter (fun x => !p x) := by
  intro c w r
  induction c, w, r using eraseIfGo.induct (p := p) with
  | case1 c w r h hp ih =>
    intro hwr hr
    rw [eraseIfGo, dif_pos h, if_pos hp]
    rw [ih (by omega) (by omega)]
    rw [drop_eq_getD_cons h]
    simp [hp, -List.getD_eq_getElem?_getD]
  | case2 c w h hp ih =>
    intro hwr hr
    rw [eraseIfGo, dif_pos h, if_neg hp, if_pos rfl]
    rw [ih (by omega) (by omega)]
    rw [take_succ_of_lt c w h, drop_eq_getD_cons h]
    simp [hp, -List.getD_eq_getElem?_getD]
  | case3 c w r h hp hne ih =>
    intro hwr hr
    rw [eraseIfGo, dif_pos h, if_neg hp, if_neg hne]
    rw [ih (by omega) (by rw [listSwap_length]; omega)]
    have hwr' : w < r := by omega
    rw [listSwap_take_succ c w r hwr' h, listSwap_drop c w r hwr', drop_eq_getD_cons h]
    simp [hp, -List.getD_eq_getElem?_getD]
  | case4 c w r h =>
    intro hwr hr
    rw [eraseIfGo, dif_neg h]
    have hrl : r = c.length := by omega
    simp [hrl]

lemma EraseIfMove_eq_filter {α : Type _} [Inhabited α] (p : α → Bool) (c : List α) :
    EraseIfMove p c = c.filter fun x => !p x := by
  unfold EraseIfMove
  have := eraseIfGo_spec p c 0 0 (Nat.le_refl 0) (Nat.zero_le _)
  simpa using this

lemma EraseIfNonMove_eq_filter {α : Type _} (p : α → Bool) :
    ∀ c : List α, EraseIfNonMove p c = c.filter fun x => !p x
  | [] => rfl
  | x :: xs => by
    rw [EraseIfNonMove]
    by_cases h : p x <;> simp [h, EraseIfNonMove_eq_filter p xs]

lemma randomResizeGo_map {α β : Type _} (f : α → β) :
    ∀ (l : List α) (rs : List Nat) (t : Nat),
      randomResizeGo rs t (l.map f) = (randomResizeGo rs t l).map f
  | [], _, _ => by simp
  | _ :: _, [], _ => by simp
  | x :: xs, r :: rs, t => by
    simp only [List.map_cons, randomResizeGo_cons]
    by_cases h : r ≤ t
    · simp [h, randomResizeGo_map f xs rs (t - 1)]
    · simp [h, randomResizeGo_map f xs rs t]

lemma drawLists_card : ∀ n : Nat, (drawLists n).card = n.factorial
  | 0 => rfl
  | n + 1 => by
    rw [drawLists, Finset.card_biUnion]
    · have hc : ∀ r ∈ Finset.Icc 1 (n + 1),
          ((drawLists n).image (List.cons r)).card = n.factorial := fun r _ => by
        rw [Finset.card_image_of_injective _ List.cons_injective]
        exact drawLists_card n
      rw [Finset.sum_congr rfl hc, Finset.sum_const, Nat.card_Icc, smul_eq_mul,
        Nat.factorial_succ]
      have harith : n + 1 + 1 - 1 = n + 1 := by omega
      rw [harith]
    · intro r hr r' hr' hne
      rw [Finset.disjoint_left]
      intro a ha ha'
      obtain ⟨l, _, rfl⟩ := Finset.mem_image.mp ha
      obtain ⟨l', _, heq⟩ := Finset.mem_image.mp ha'
      injection heq with h1 _
      exact hne h1.symm

lemma card_filter_drawLists_succ (n : Nat) (P : List Nat → Prop) [DecidablePred P] :
    ((drawLists (n + 1)).filter P).card
      = ∑ r in Finset.Icc 1 (n + 1), ((drawLists n).filter fun rs => P (r :: rs)).card := by
  rw [drawLists, Finset.filter_biUnion, Finset.card_biUnion]
  · refine Finset.sum_congr rfl fun r _ => ?_
    rw [Finset.filter_image, Finset.card_image_of_injective _ List.cons_injective]
  · intro r hr r' hr' hne
    rw [Finset.disjoint_left]
    intro a ha ha'
    have h1 := (Finset.mem_filter.mp ha).1
    have h2 := (Finset.mem_filter.mp ha').1
    obtain ⟨l, _, rfl⟩ := Finset.mem_image.mp h1
    obtain ⟨l', _, heq⟩ := Finset.mem_image.mp h2
    injection heq with hh _
    exact hne hh.symm

lemma map_succ_ne_zero_cons (L M : List Nat) : L.map Nat.succ ≠ 0 :: M := by
  cases L <;> simp

lemma drawLists_count_go (n : Nat) :
    ∀ S : List Nat, S.Sublist (List.range n) →
      ((drawLists n).filter fun rs => randomResizeGo rs S.length (List.range n) = S).card
        = S.length.factorial * (n - S.length).factorial := by
  induction n with
  | zero =>
    intro S hS
    rw [List.range_zero, List.sublist_nil] at hS
    subst hS
    rfl
  | succ n ih =>
    intro S hS
    have hSlen : S.length ≤ n + 1 := by simpa using hS.length_le
    rw [card_filter_drawLists_succ]
    rw [List.range_succ_eq_map] at hS
    rcases List.sublist_cons_iff.mp hS with hS0 | ⟨S0, rfl, hS0⟩
    · -- S does not start with 0: S is the successor image of some T <+ range n
      obtain ⟨T, hT, rfl⟩ := List.sublist_map_iff.mp hS0
      have hkn : T.length ≤ n := by simpa using hT.length_le
      have hcond : ∀ r rs, (randomResizeGo (r :: rs) (T.map Nat.succ).length
            (List.range (n + 1)) = T.map Nat.succ)
          ↔ (¬ r ≤ T.length ∧ randomResizeGo rs T.length (List.range n) = T) := by
        intro r rs
        rw [List.range_succ_eq_map, List.length_map, randomResizeGo_cons]
        by_cases h : r ≤ T.length
        · simp only [if_pos h]
          constructor
          · intro hEq
            rw [randomResizeGo_map] at hEq
            exact absurd hEq.symm (map_succ_ne_zero_cons T _)
          · rintro ⟨hc, _⟩
            exact absurd h hc
        · simp only [if_neg h]
          rw [randomResizeGo_map]
          constructor
          · intro hEq
            exact ⟨h, (List.map_injective_iff.mpr Nat.succ_injective) hEq⟩
          · rintro ⟨_, hEq⟩
            rw [hEq]
      have hsummand : ∀ r ∈ Finset.Icc 1 (n + 1),
          ((drawLists n).filter fun rs => randomResizeGo (r :: rs) (T.map Nat.succ).length
              (List.range (n + 1)) = T.map Nat.succ).card
            = if r ≤ T.length then 0 else T.length.factorial * (n - T.length).factorial := by
        intro r hr
        by_cases h : r ≤ T.length
        · rw [if_pos h, Finset.card_eq_zero, Finset.filter_eq_empty_iff]
          intro rs _
          rw [hcond]
          rintro ⟨hc, _⟩
          exact hc h
        · rw [if_neg h]
          have heq : ((drawLists n).filter fun rs => randomResizeGo (r :: rs)
                (T.map Nat.succ).length (List.range (n + 1)) = T.map Nat.succ)
              = (drawLists n).filter fun rs => randomResizeGo rs T.length (List.range n) = T := by
            apply Finset.filter_congr
            intro rs _
            rw [hcond]
            simp [h]
          rw [heq, ih T hT]
      rw [Finset.sum_congr rfl hsummand, Finset.sum_ite, Finset.sum_const_zero,
        Finset.sum_const, smul_eq_mul, zero_add]
      have hfc : (Finset.Icc 1 (n + 1)).filter (fun r => ¬ r ≤ T.length)
          = Finset.Icc (T.length + 1) (n + 1) := by
        ext r
        simp only [Finset.mem_filter, Finset.mem_Icc]
        omega
      rw [hfc, Nat.card_Icc]
      have h1 : n + 1 + 1 - (T.length + 1) = (n - T.length) + 1 := by omega
      have h2 : n + 1 - (T.map Nat.succ).length = (n - T.length) + 1 := by
        rw [List.length_map]
        omega
      rw [h1, h2, List.length_map, Nat.factorial_succ]
      ring
    · -- S starts with 0: S = 0 :: successor image of some T <+ range n
      obtain ⟨T, hT, rfl⟩ := List.sublist_map_iff.mp hS0
      have hkn : T.length ≤ n := by simpa using hT.length_le
      have hcond : ∀ r rs, (randomResizeGo (r :: rs) (0 :: T.map Nat.succ).length
            (List.range (n + 1)) = 0 :: T.map Nat.succ)
          ↔ (r ≤ T.length + 1 ∧ randomResizeGo rs T.length (List.range n) = T) := by
        intro r rs
        rw [List.range_succ_eq_map, List.length_cons, List.length_map, randomResizeGo_cons]
        by_cases h : r ≤ T.length + 1
        · simp only [if_pos h, Nat.add_sub_cancel]
          rw [randomResizeGo_map]
          constructor
          · intro hEq
            have htail : (randomResizeGo rs T.length (List.range n)).map Nat.succ
                = T.map Nat.succ := by
              injection hEq
            exact ⟨h, (List.map_injective_iff.mpr Nat.succ_injective) htail⟩
          · rintro ⟨_, hEq⟩
            rw [hEq]
        · simp only [if_neg h]
          rw [randomResizeGo_map]
          constructor
          · intro hEq
            exact absurd hEq (map_succ_ne_zero_cons _ _)
          · rintro ⟨hc, _⟩
            exact absurd hc h
      have hsummand : ∀ r ∈ Finset.Icc 1 (n + 1),
          ((drawLists n).filter fun rs => randomResizeGo (r :: rs)
              (0 :: T.map Nat.succ).length (List.range (n + 1)) = 0 :: T.map Nat.succ).card
            = if r ≤ T.length + 1 then T.length.factorial * (n - T.length).factorial else 0 := by
        intro r hr
        by_cases h : r ≤ T.length + 1
        · rw [if_pos h]
          have heq : ((drawLists n).filter fun rs => randomResizeGo (r :: rs)
                (0 :: T.map Nat.succ).length (List.range (n + 1)) = 0 :: T.map Nat.succ)
              = (drawLists n).filter fun rs => randomResizeGo rs T.length (List.range n) = T := by
            apply Finset.filter_congr
            intro rs _
            rw [hcond]
            simp [h]
          rw [heq, ih T hT]
        · rw [if_neg h, Finset.card_eq_zero, Finset.filter_eq_empty_iff]
          intro rs _
          rw [hcond]
          rintro ⟨hc, _⟩
          exact h hc
      rw [Finset.sum_congr rfl hsummand, Finset.sum_ite, Finset.sum_const,
        Finset.sum_const_zero, add_zero, smul_eq_mul]
      have hfc : (Finset.Icc 1 (n + 1)).filter (fun r => r ≤ T.length + 1)
          = Finset.Icc 1 (T.length + 1) := by
        ext r
        simp only [Finset.mem_filter, Finset.mem_Icc]
        omega
      rw [hfc, Nat.card_Icc]
      have h1 : T.length + 1 + 1 - 1 = T.length + 1 := by omega
      have h2 : (0 :: T.map Nat.succ).length = T.length + 1 := by
        rw [List.length_cons, List.length_map]
      have h3 : n + 1 - (T.length + 1) = n - T.length := by omega
      rw [h1, h2, h3, Nat.factorial_succ]
      ring

end Acore.Containers

/-! ## Claim theorems -/

namespace Acore

open Containers

/-- C8: a `CheckedBufferOutputIterator` over a buffer of capacity `n`
admits exactly `n` successful write-and-advance steps: writing `n` values
succeeds without signalling and without touching memory at or past the
buffer's end, and the `(n+1)`-th write attempt fails with the
out-of-range error at exactly that write. -/
theorem CheckedBufferOutputIterator_capacity_spec (T : Type) (n : Nat) (vs mem : List T)
    (hlen : vs.length = n) :
    (∃ mem', CheckedBufferOutputIterator.writeAll (CheckedBufferOutputIterator.make n) mem vs
        = Except.ok (⟨n, n⟩, mem') ∧ mem'.length = mem.length ∧ mem'.drop n = mem.drop n)
  ∧ ∀ v : T, CheckedBufferOutputIterator.writeAll (CheckedBufferOutputIterator.make n) mem
        (vs ++ [v]) = Except.error "index" := by
  obtain ⟨mem', hall, hmlen, hdrop⟩ :=
    CheckedBufferOutputIterator.writeAll_ok_of_le n vs 0 mem (by omega)
  constructor
  · exact ⟨mem', by simpa [CheckedBufferOutputIterator.make, hlen] using hall, hmlen, hdrop⟩
  · intro v
    rw [CheckedBufferOutputIterator.writeAll_append]
    have : CheckedBufferOutputIterator.writeAll (CheckedBufferOutputIterator.make n) mem vs
        = Except.ok (⟨n, n⟩, mem') := by
      simpa [CheckedBufferOutputIterator.make, hlen] using hall
    rw [this]
    show CheckedBufferOutputIterator.writeAll _ _ [v] = _
    rw [CheckedBufferOutputIterator.writeAll, CheckedBufferOutputIterator.writeStep_full]

/-- C8 witness: capacity 3, three writes succeed, the fourth fails. -/
theorem CheckedBufferOutputIterator_capacity_witness :
    ((10 : Nat) :: 20 :: 30 :: []).length = 3 ∧
    ((∃ mem', CheckedBufferOutputIterator.writeAll (CheckedBufferOutputIterator.make 3)
          [0, 0, 0] [10, 20, 30]
          = Except.ok (⟨3, 3⟩, mem') ∧ mem'.length = ([0, 0, 0] : List Nat).length ∧
          mem'.drop 3 = ([0, 0, 0] : List Nat).drop 3)
      ∧ ∀ v : Nat, CheckedBufferOutputIterator.writeAll (CheckedBufferOutputIterator.make 3)
          [0, 0, 0] ([10, 20, 30] ++ [v]) = Except.error "index") :=
  ⟨rfl, CheckedBufferOutputIterator_capacity_spec Nat 3 [10, 20, 30] [0, 0, 0] rfl⟩

/-- C9: `remaining()` starts at the full capacity `n`, each successful
increment decreases it by exactly one, and an increment or a checked
dereference (write) fails if and only if `remaining()` is zero. -/
theorem CheckedBufferOutputIterator_remaining_spec (T : Type) (n : Nat) :
    (CheckedBufferOutputIterator.make n).remaining = n
  ∧ (∀ it it' : CheckedBufferOutputIterator,
      it.inc = Except.ok it' → it'.remaining + 1 = it.remaining)
  ∧ (∀ it : CheckedBufferOutputIterator,
      (∃ e, it.inc = Except.error e) ↔ it.remaining = 0)
  ∧ (∀ (it : CheckedBufferOutputIterator) (mem : List T) (v : T),
      (∃ e, it.write mem v = Except.error e) ↔ it.remaining = 0) := by
  refine ⟨rfl, ?_, ?_, ?_⟩
  · intro it it' h
    unfold CheckedBufferOutputIterator.inc CheckedBufferOutputIterator.check at h
    by_cases hb : it.buf < it.endp
    · simp [hb] at h
      subst h
      simp [CheckedBufferOutputIterator.remaining]
      omega
    · simp [hb] at h
  · intro it
    unfold CheckedBufferOutputIterator.inc CheckedBufferOutputIterator.check
    by_cases hb : it.buf < it.endp
    · simp [hb, CheckedBufferOutputIterator.remaining]
      omega
    · simp [hb, CheckedBufferOutputIterator.remaining]
      omega
  · intro it mem v
    unfold CheckedBufferOutputIterator.write CheckedBufferOutputIterator.check
    by_cases hb : it.buf < it.endp
    · simp [hb, CheckedBufferOutputIterator.remaining]
      omega
    · simp [hb, CheckedBufferOutputIterator.remaining]
      omega

/-- C9 witness: instantiated at capacity 2 and a concrete increment. -/
theorem CheckedBufferOutputIterator_remaining_witness :
    (CheckedBufferOutputIterator.make 2).remaining = 2 ∧
    (⟨1, 2⟩ : CheckedBufferOutputIterator).remaining + 1
      = (⟨0, 2⟩ : CheckedBufferOutputIterator).remaining ∧
    ¬ (⟨2, 2⟩ : CheckedBufferOutputIterator).remaining = 0 + 1 :=
  ⟨(CheckedBufferOutputIterator_remaining_spec Nat 2).1,
   (CheckedBufferOutputIterator_remaining_spec Nat 2).2.1 ⟨0, 2⟩ ⟨1, 2⟩ rfl,
   by decide⟩


/-- C10: `MapGetValuePtr` returns the null pointer exactly when the key is
absent; when the key is present it returns (a pointer to) the mapped
value.  The embedding is a pure function of the map, which it does not
modify. -/
theorem MapGetValuePtr_spec (K V : Type) [DecidableEq K] (map : List (K × V)) (key : K)
    (hnodup : (map.map Prod.fst).Nodup) :
    (MapGetValuePtr map key = none ↔ key ∉ map.map Prod.fst)
  ∧ ∀ v : V, (key, v) ∈ map → MapGetValuePtr map key = some v := by
  refine ⟨⟨?_, ?_⟩, fun v hv => MapGetValuePtr_mem map key v hnodup hv⟩
  · intro h hmem
    cases hfind : map.find? (fun e => decide (e.1 = key)) with
    | some e => simp [MapGetValuePtr, hfind] at h
    | none =>
      obtain ⟨e, he, hkey⟩ := List.mem_map.mp hmem
      have := List.find?_eq_none.mp hfind e he
      simp [hkey] at this
  · intro hnot
    cases hfind : map.find? (fun e => decide (e.1 = key)) with
    | none => simp [MapGetValuePtr, hfind]
    | some e =>
      exfalso
      have hp := List.find?_some hfind
      have hmem := List.mem_of_find?_eq_some hfind
      simp only [decide_eq_true_eq] at hp
      exact hnot (List.mem_map.mpr ⟨e, hmem, hp⟩)

/-- C10 witness: a concrete two-entry map, present and absent keys. -/
theorem MapGetValuePtr_witness :
    (MapGetValuePtr [(1, 10), (2, 20)] (3 : Nat) = (none : Option Nat) ↔
      (3 : Nat) ∉ ([(1, 10), (2, 20)] : List (Nat × Nat)).map Prod.fst) ∧
    MapGetValuePtr [(1, 10), (2, 20)] (2 : Nat) = some 20 :=
  ⟨(MapGetValuePtr_spec Nat Nat [(1, 10), (2, 20)] 3 (by decide)).1,
   (MapGetValuePtr_spec Nat Nat [(1, 10), (2, 20)] 2 (by decide)).2 20 (by decide)⟩

/-- C7: `MultimapErasePair` removes exactly the entries equal to
`(key, value)` from the equal-key range and leaves every other entry
(same key with another value, and all other keys) untouched, in order. -/
theorem MultimapErasePair_frame_spec (K V : Type) [DecidableEq K] [DecidableEq V]
    (pre mid post : List (K × V)) (key : K) (value : V)
    (hpre : ∀ e ∈ pre, e.1 ≠ key) (hmid : ∀ e ∈ mid, e.1 = key)
    (hpost : ∀ e ∈ post, e.1 ≠ key) :
    MultimapErasePair pre mid post value
      = (pre ++ mid ++ post).filter fun e => !(decide (e.1 = key) && decide (e.2 = value)) := by
  have h1 : pre.filter (fun e => !(decide (e.1 = key) && decide (e.2 = value))) = pre :=
    List.filter_eq_self.mpr fun e he => by simp [hpre e he]
  have h3 : post.filter (fun e => !(decide (e.1 = key) && decide (e.2 = value))) = post :=
    List.filter_eq_self.mpr fun e he => by simp [hpost e he]
  have h2 : mid.filter (fun e => !(decide (e.1 = key) && decide (e.2 = value)))
      = mid.filter fun e => !decide (e.2 = value) :=
    List.filter_congr fun e he => by simp [hmid e he]
  unfold MultimapErasePair
  rw [List.filter_append, List.filter_append, h1, h3, h2,
    multimapErasePairLoop_eq_filter]

/-- C7 witness: erasing `(7, 1)` from `{(7,1), (7,1), (7,2)}` leaves
exactly `{(7, 2)}`. -/
theorem MultimapErasePair_frame_witness :
    MultimapErasePair ([] : List (Nat × Nat)) [(7, 1), (7, 1), (7, 2)] [] 1 = [(7, 2)] :=
  (MultimapErasePair_frame_spec Nat Nat [] [(7, 1), (7, 1), (7, 2)] [] 7 1
    (by decide) (by decide) (by decide)).trans (by decide)

/-- C3: the predicate overload of `RandomResize` first replaces the
container by exactly its predicate-satisfying elements in original order;
a nonzero target is then enforced by the plain `RandomResize` on that
filtered sequence, while target `0` returns the filtered sequence
uncapped. -/
theorem RandomResizeIf_spec (α : Type) (rs : List Nat) (container : List α)
    (predicate : α → Bool) (k : Nat) :
    RandomResizeIf rs container predicate 0 = container.filter predicate
  ∧ (∀ x, x ∈ container.filter predicate ↔ x ∈ container ∧ predicate x = true)
  ∧ (k ≠ 0 → RandomResizeIf rs container predicate k
        = RandomResize rs (container.filter predicate) k) :=
  ⟨by simp [RandomResizeIf], fun x => List.mem_filter,
   fun hk => by simp [RandomResizeIf, hk]⟩

/-- C3 witness: filtering `[1,2,3]` for odd values with cap `1`. -/
theorem RandomResizeIf_witness :
    RandomResizeIf [1] [1, 2, 3] (fun n : Nat => n % 2 == 1) 1
      = RandomResize [1] ([1, 2, 3].filter fun n : Nat => n % 2 == 1) 1 :=
  (RandomResizeIf_spec Nat [1] [1, 2, 3] (fun n : Nat => n % 2 == 1) 1).2.2 (by decide)



/-- C1: with in-range draws from the random source, `RandomResize` leaves
exactly `min(n, k)` elements, every survivor comes from the original
container and survivors keep their original relative order (they form a
sublist); when `n <= k` the container is completely unchanged. -/
theorem RandomResize_spec (α : Type) (rs : List Nat) (container : List α) (k : Nat)
    (hrs : validDraws rs container.length = true) :
    (RandomResize rs container k).length = min container.length k
  ∧ (RandomResize rs container k).Sublist container
  ∧ (container.length ≤ k → RandomResize rs container k = container) := by
  unfold RandomResize
  by_cases h : container.length ≤ k
  · simp [h, Nat.min_eq_left h]
  · have hk : k ≤ container.length := by omega
    refine ⟨?_, ?_, fun hc => absurd hc h⟩
    · simp only [if_neg h]
      rw [randomResizeGo_length container rs k hrs hk]
      omega
    · simp only [if_neg h]
      exact randomResizeGo_sublist container rs k
/-- C1 witness: a concrete valid draw sequence on a three-element list
with target 2. -/
theorem RandomResize_witness :
    validDraws [2, 1, 1] ([10, 20, 30] : List Nat).length = true ∧
    ((RandomResize [2, 1, 1] ([10, 20, 30] : List Nat) 2).length
        = min ([10, 20, 30] : List Nat).length 2 ∧
      (RandomResize [2, 1, 1] ([10, 20, 30] : List Nat) 2).Sublist [10, 20, 30] ∧
      (([10, 20, 30] : List Nat).length ≤ 2 →
        RandomResize [2, 1, 1] ([10, 20, 30] : List Nat) 2 = [10, 20, 30])) :=
  ⟨by decide, RandomResize_spec Nat [2, 1, 1] [10, 20, 30] 2 (by decide)⟩



/-- C4: both `EraseIf` code paths (move-assignable two-cursor compaction,
and non-move-assignable per-element erase) leave exactly the elements on
which the predicate is false, in their original relative order, and agree
with each other; in particular on `[1,2,3,4,5,6]` with "is even" both
yield `[1,3,5]`. -/
theorem EraseIf_spec :
    (∀ (α : Type) [Inhabited α] (p : α → Bool) (c : List α),
        EraseIfMove p c = c.filter (fun x => !p x)
      ∧ EraseIfNonMove p c = c.filter fun x => !p x)
  ∧ EraseIfMove (fun n : Nat => n % 2 == 0) [1, 2, 3, 4, 5, 6] = [1, 3, 5]
  ∧ EraseIfNonMove (fun n : Nat => n % 2 == 0) [1, 2, 3, 4, 5, 6] = [1, 3, 5] := by
  refine ⟨fun α _ p c => ⟨EraseIfMove_eq_filter p c, EraseIfNonMove_eq_filter p c⟩, ?_, ?_⟩
  · rw [EraseIfMove_eq_filter]
    decide
  · decide



/-- C5: `SelectRandomContainerElementIf` returns the end sentinel exactly
when no element matches; with exactly one match it deterministically
returns that position for every in-range behaviour of the random source;
and in general the match list has pairwise-distinct positions and the
draw `j` selects exactly the `j`-th matching position, so a uniform draw
yields a uniform choice among the matches. -/
theorem SelectRandomContainerElementIf_spec (α : Type) [Inhabited α]
    (container : List α) (predicate : α → Bool) :
    (matchingIndices container predicate = []
        ↔ ∀ i < container.length, ¬ predicate (container.getD i default) = true)
  ∧ (∀ d : Nat → Nat, matchingIndices container predicate = [] →
        SelectRandomContainerElementIf d container predicate = none)
  ∧ (∀ (d : Nat → Nat) (i : Nat), (∀ hi, d hi ≤ hi) →
        matchingIndices container predicate = [i] →
        SelectRandomContainerElementIf d container predicate = some i)
  ∧ (matchingIndices container predicate).Nodup
  ∧ (∀ (d : Nat → Nat) (j : Nat), j < (matchingIndices container predicate).length →
        d ((matchingIndices container predicate).length - 1) = j →
        SelectRandomContainerElementIf d container predicate
          = some ((matchingIndices container predicate).getD j 0)) := by
  refine ⟨?_, ?_, ?_, ?_, ?_⟩
  · unfold matchingIndices
    rw [List.filter_eq_nil_iff]
    constructor
    · intro h i hi
      exact fun hp => h i (List.mem_range.mpr hi) hp
    · intro h i hi
      exact h i (List.mem_range.mp hi)
  · intro d h
    simp [SelectRandomContainerElementIf, h]
  · intro d i hd h
    have hd0 : d 0 = 0 := Nat.le_zero.mp (hd 0)
    simp [SelectRandomContainerElementIf, h, hd0]
  · exact (List.nodup_range _).filter _
  · intro d j hj hdj
    have hne : (matchingIndices container predicate).isEmpty = false := by
      cases hm : matchingIndices container predicate with
      | nil => rw [hm] at hj; simp at hj
      | cons a as => rfl
    simp only [SelectRandomContainerElementIf, hne, Bool.false_eq_true, if_false, hdj]

/-- C5 witness: on `[5,2,7,4]` with "is even" the matches are positions
`[1, 3]`; the draw `1` selects position `3`. -/
theorem SelectRandomContainerElementIf_witness :
    SelectRandomContainerElementIf (fun _ => 1) [5, 2, 7, 4] (fun n : Nat => n % 2 == 0)
      = some 3 := by
  have h := (SelectRandomContainerElementIf_spec Nat [5, 2, 7, 4]
      (fun n : Nat => n % 2 == 0)).2.2.2.2 (fun _ => 1) 1 (by decide) (by decide)
  rw [h]
  decide

/-- C6: Form B of the weighted selector extracts the weights, substitutes
the all-ones vector exactly when their sum is `<= 0` before delegating to
Form A, and otherwise delegates with the extracted weights unchanged; in
particular with an all-zero extractor it delegates with the all-ones
vector, whose induced weighted-draw distribution coincides with the
Uniform Element Selector's draw distribution `1/n`. -/
theorem SelectRandomWeightedContainerElementExt_spec (α : Type) (wdraw : List ℚ → Nat)
    (container : List α) (weightExtractor : α → ℚ) (hne : container ≠ []) :
    ((container.map weightExtractor).sum ≤ 0 →
        SelectRandomWeightedContainerElementExt wdraw container weightExtractor
          = SelectRandomWeightedContainerElement wdraw container
              (List.replicate container.length 1))
  ∧ (0 < (container.map weightExtractor).sum →
        SelectRandomWeightedContainerElementExt wdraw container weightExtractor
          = SelectRandomWeightedContainerElement wdraw container
              (container.map weightExtractor))
  ∧ ((∀ x ∈ container, weightExtractor x = 0) →
        SelectRandomWeightedContainerElementExt wdraw container weightExtractor
          = SelectRandomWeightedContainerElement wdraw container
              (List.replicate container.length 1)
        ∧ ∀ i, weightedIndexProb (List.replicate container.length 1) i
            = uniformIndexProb container.length i) := by
  have hone : ∀ i : Nat, (List.replicate container.length (1 : ℚ)).getD i 0
      = if i < container.length then 1 else 0 := by
    intro i
    rw [List.getD_eq_getElem?_getD, List.getElem?_replicate]
    by_cases hi : i < container.length
    · simp [hi]
    · simp [hi]
  have hsum : (List.replicate container.length (1 : ℚ)).sum = container.length := by
    simp [List.sum_replicate]
  refine ⟨?_, ?_, ?_⟩
  · intro h
    simp [SelectRandomWeightedContainerElementExt, h]
  · intro h
    simp [SelectRandomWeightedContainerElementExt, not_le.mpr h]
  · intro hz
    have hzero : (container.map weightExtractor).sum = 0 :=
      List.sum_eq_zero fun x hx => by
        obtain ⟨y, hy, rfl⟩ := List.mem_map.mp hx
        exact hz y hy
    refine ⟨by simp [SelectRandomWeightedContainerElementExt, hzero], ?_⟩
    intro i
    unfold weightedIndexProb uniformIndexProb
    rw [hone i, hsum]
    by_cases hi : i < container.length
    · simp [hi]
    · simp [hi]

/-- C6 witness: two elements, extractor constantly zero. -/
theorem SelectRandomWeightedContainerElementExt_witness :
    (SelectRandomWeightedContainerElementExt (fun _ => 0) [10, 20] (fun _ : Nat => (0 : ℚ))
        = SelectRandomWeightedContainerElement (fun _ => 0) [10, 20]
            (List.replicate ([10, 20] : List Nat).length 1))
  ∧ weightedIndexProb (List.replicate ([10, 20] : List Nat).length 1) 0
      = uniformIndexProb ([10, 20] : List Nat).length 0 :=
  ⟨((SelectRandomWeightedContainerElementExt_spec Nat (fun _ => 0) [10, 20]
      (fun _ => 0) (by decide)).2.2 (fun x _ => rfl)).1,
   ((SelectRandomWeightedContainerElementExt_spec Nat (fun _ => 0) [10, 20]
      (fun _ => 0) (by decide)).2.2 (fun x _ => rfl)).2 0⟩



/-- C2: for `k < n`, `RandomResize` realises the single-pass rule "draw
uniformly in `[1, elementsToProcess]`, keep iff the draw is at most
`elementsToKeep`"; counting over the uniform sample space of all valid
draw sequences (`drawLists n`, of size `n!`), every possible surviving
position set `S` (a `k`-element sublist of `0..n-1`) is produced by
exactly `k! * (n-k)!` draw sequences — the same number for every `S`, so
all `C(n,k)` subsets are equally likely. -/
theorem RandomResize_uniform_subsets (n k : Nat) (S : List Nat) (hk : k < n)
    (hS : S.Sublist (List.range n)) (hlen : S.length = k) :
    ((drawLists n).filter fun rs => RandomResize rs (List.range n) k = S).card
        = k.factorial * (n - k).factorial
  ∧ (drawLists n).card = n.factorial := by
  constructor
  · have hunfold : ∀ rs : List Nat,
        RandomResize rs (List.range n) k = randomResizeGo rs k (List.range n) := by
      intro rs
      unfold RandomResize
      rw [if_neg]
      rw [List.length_range]
      omega
    have heq : ((drawLists n).filter fun rs => RandomResize rs (List.range n) k = S)
        = (drawLists n).filter fun rs => randomResizeGo rs S.length (List.range n) = S := by
      apply Finset.filter_congr
      intro rs _
      rw [hunfold rs, hlen]
    rw [heq, drawLists_count_go n S hS, hlen]
  · exact drawLists_card n

/-- C2 witness: `n = 3`, `k = 1`, surviving set `{1}`: exactly
`1! * 2! = 2` of the `3! = 6` valid draw sequences produce it. -/
theorem RandomResize_uniform_witness :
    ((drawLists 3).filter fun rs => RandomResize rs (List.range 3) 1 = [1]).card
        = Nat.factorial 1 * Nat.factorial 2
  ∧ (drawLists 3).card = Nat.factorial 3 :=
  RandomResize_uniform_subsets 3 1 [1] (by decide) (by decide) rfl


end Acore
